import Mathlib

/-!
Verification of the piclet-generator layout composition logic
(`aggregate/piclet_generator.py`): a shallow embedding of the hierarchy
walker (`find_port_sin_cell_and_position`), the composition routine
(`create_simplified_piclet`) and the outer driver (`generate_piclets`),
with the geometry kernel (cells, instances, bounding boxes, transforms)
modelled as explicit data.  Kernel-computed quantities (a cell's bounding
box, the bounding box of an instance produced by `connect_cell`, the
parts-library lookups) are inputs of the model, mirroring the external
collaborators of the source.
-/

namespace PicletGen

deriving instance DecidableEq for Except

/-- An integer point (database units), mirroring `pya.Point`. -/
structure Pt where
  x : Int
  y : Int
deriving DecidableEq, Repr

/-- An integer box, mirroring `pya.Box` (normalized: left ≤ right, bottom ≤ top). -/
structure Box where
  left : Int
  bottom : Int
  right : Int
  top : Int
deriving DecidableEq, Repr

/-- `pya.Box.center()`. -/
def Box.center (b : Box) : Pt :=
  ⟨(b.left + b.right) / 2, (b.bottom + b.top) / 2⟩

/-- `pya.Box.width()`. -/
def Box.width (b : Box) : Int := b.right - b.left

/-- Rotations allowed by `pya.Trans`: multiples of 90 degrees (no mirror is
used anywhere in the source). -/
inductive Rot where
  | r0 | r90 | r180 | r270
deriving DecidableEq, Repr

/-- `pya.Trans`: rotation followed by translation. -/
structure Trans where
  rot : Rot
  dx : Int
  dy : Int
deriving DecidableEq, Repr

def Rot.apply : Rot → Pt → Pt
  | .r0, p => ⟨p.x, p.y⟩
  | .r90, p => ⟨-p.y, p.x⟩
  | .r180, p => ⟨-p.x, -p.y⟩
  | .r270, p => ⟨p.y, -p.x⟩

def Trans.apply (t : Trans) (p : Pt) : Pt :=
  let q := t.rot.apply p
  ⟨q.x + t.dx, q.y + t.dy⟩

/-- A box mapped through a transform (corners transformed, then normalized),
as the kernel computes an instance's bounding box from its cell's. -/
def Box.transformed (b : Box) (t : Trans) : Box :=
  let p1 := t.apply ⟨b.left, b.bottom⟩
  let p2 := t.apply ⟨b.right, b.top⟩
  ⟨min p1.x p2.x, min p1.y p2.y, max p1.x p2.x, max p1.y p2.y⟩

/-- A pin as written by `SiEPIC.utils.layout.make_pin(cell, name, [x, y], w,
'PinRec', rotation)`: name, cell-local position, width, facing rotation. -/
structure Pin where
  name : String
  pos : Pt
  width : Int
  rot : Int
deriving DecidableEq, Repr

/-- An instance of a cell (referenced by index) at a transform inside a
parent cell, mirroring `pya.Instance`. -/
structure Inst where
  child : Nat
  trans : Trans
deriving DecidableEq, Repr

/-- A cell: name, direct child instances, its (kernel-computed) bounding box,
and its pins.  The bounding box is data here because bounding-box queries are
the external geometry kernel's. -/
structure Cell where
  name : String
  insts : List Inst
  bbox : Box
  pins : List Pin
deriving DecidableEq, Repr

/-- A layout: cells addressed by `cell_index`. -/
structure Layout where
  cells : List Cell
deriving DecidableEq, Repr

def emptyCell : Cell := ⟨"", [], ⟨0, 0, 0, 0⟩, []⟩

def Layout.cellAt (ly : Layout) (i : Nat) : Cell := ly.cells.getD i emptyCell

/-- `inst.bbox()`: the referenced cell's bounding box mapped through the
instance's transform. -/
def Inst.bboxIn (ly : Layout) (i : Inst) : Box :=
  ((ly.cellAt i.child).bbox).transformed i.trans

/-- `p <+: t` as a boolean, by recursion. -/
def listPrefixOf {α : Type} [DecidableEq α] : List α → List α → Bool
  | [], _ => true
  | _ :: _, [] => false
  | a :: as, b :: bs => if a = b then listPrefixOf as bs else false

/-- Substring containment on lists: the pattern occurs contiguously in the
text, by recursion (pattern first argument). -/
def listSubstr {α : Type} [DecidableEq α] (pat : List α) : List α → Bool
  | [] => listPrefixOf pat []
  | b :: rest => listPrefixOf pat (b :: rest) || listSubstr pat rest

/-- Python's `pat in s` on strings: substring containment. -/
def containsSubstr (s pat : String) : Bool := listSubstr pat.toList s.toList

/-- The walker's marker predicate: `"port_SiN" in inst.cell.name`. -/
def matchesPortSiN (s : String) : Bool := containsSubstr s "port_SiN"

/-- The first loop of `find_port_sin_cell_and_position`: scan the direct
instances in order; on the first whose referenced cell's name contains
"port_SiN", return that cell (index) and the y of the instance's bounding-box
center. -/
def firstPortSiN (ly : Layout) : List Inst → Option (Nat × Int)
  | [] => none
  | i :: rest =>
    if matchesPortSiN (ly.cellAt i.child).name then
      some (i.child, (i.bboxIn ly).center.y)
    else firstPortSiN ly rest

/-- The recursive body of `find_port_sin_cell_and_position`.  `visited` is the
single visited-set threaded through the whole traversal (the Python mutates
one `set` in place); the result pairs the walker's answer with the final
visited-set.  `fuel` bounds the recursion depth; `fuel = cells.length + 1`
always suffices (proved below), mirroring the Python function's termination
argument.  The second loop over `cell.each_inst()` is the fold: once an
answer is found the remaining iterations pass it through unchanged, which is
the Python's early `return`. -/
def findAux (ly : Layout) (fuel : Nat) (idx : Nat) (visited : List Nat) :
    Option (Nat × Int) × List Nat :=
  match fuel with
  | 0 => (none, visited)
  | fuel' + 1 =>
    if idx ∈ visited then (none, visited)
    else
      match firstPortSiN ly (ly.cellAt idx).insts with
      | some r => (some r, idx :: visited)
      | none =>
        (ly.cellAt idx).insts.foldl
          (fun acc i =>
            match acc with
            | (some r, v) => (some r, v)
            | (none, v) => findAux ly fuel' i.child v)
          (none, idx :: visited)

/-- The second loop of the walker written as explicit recursion (used to
reason about the fold in `findAux`): try each child in order, threading the
visited-set, stopping at the first success. -/
def findList (ly : Layout) (fuel : Nat) (l : List Inst) (visited : List Nat) :
    Option (Nat × Int) × List Nat :=
  match l with
  | [] => (none, visited)
  | i :: rest =>
    match findAux ly fuel i.child visited with
    | (some r, v) => (some r, v)
    | (none, v) => findList ly fuel rest v

/-- `find_port_sin_cell_and_position(cell)`: run the walker from `idx` with a
fresh visited-set.  Returns the found cell index and the reported y, or
`none` for a miss (the Python's `(None, None)`). -/
def find_port_sin_cell_and_position (ly : Layout) (idx : Nat) :
    Option (Nat × Int) :=
  (findAux ly (ly.cells.length + 1) idx []).1

/-- Configuration constant `die_width` of the source. -/
def die_width : Int := 2753330

/-- The external collaborators consumed by `create_simplified_piclet`, per
the spec's interface section: parts-library lookups (which may miss), the
bend radius of the waveguide specification, and the bounding box of the
Y-branch instance as placed by the external `connect_cell`. -/
structure Env where
  laserOk : Bool
  pdkRadius : Option Int
  ybranchOk : Bool
  ybranchBBox : Box
  famlOk : Bool
deriving DecidableEq, Repr

/-- `radius = pdk.tech.waveguides[wg_type].radius` with the `except` fallback
`radius = 60`. -/
def Env.radius (e : Env) : Int := e.pdkRadius.getD 60

/-- The mutable state: the submission's own layout (the loaded file) and the
piclet layout being built.  These are two distinct `pya.Layout` objects in
the source. -/
structure World where
  subLy : Layout
  ly : Layout
deriving DecidableEq, Repr

/-- `ly.create_cell(name)`: append a fresh empty cell, return its index. -/
def Layout.createCell (ly : Layout) (name : String) : Layout × Nat :=
  (⟨ly.cells ++ [⟨name, [], ⟨0, 0, 0, 0⟩, []⟩]⟩, ly.cells.length)

def Layout.setCell (ly : Layout) (i : Nat) (c : Cell) : Layout :=
  ⟨ly.cells.set i c⟩

/-- `parent.insert(pya.CellInstArray(child, trans))`. -/
def Layout.addInst (ly : Layout) (parent : Nat) (i : Inst) : Layout :=
  ly.setCell parent
    { ly.cellAt parent with insts := (ly.cellAt parent).insts ++ [i] }

/-- `make_pin(cell, name, [x, y], w, 'PinRec', rot)`: record a pin on the
cell (the only mutation the source applies to submission geometry). -/
def make_pin (ly : Layout) (ci : Nat) (pname : String) (pos : Pt) (w : Int)
    (rot : Int) : Layout :=
  ly.setCell ci
    { ly.cellAt ci with pins := (ly.cellAt ci).pins ++ [⟨pname, pos, w, rot⟩] }

def reindexInst (offset : Nat) (i : Inst) : Inst := ⟨offset + i.child, i.trans⟩

def copyCell (offset : Nat) (c : Cell) : Cell :=
  ⟨c.name, c.insts.map (reindexInst offset), c.bbox, c.pins⟩

/-- `submission_cell_new = ly.create_cell(f"submission_{name}")` followed by
`submission_cell_new.copy_tree(submission_cell)`: the new cell (at index
`dst.cells.length`) receives a copy of the source root's content, and the
source layout's cells are copied into the destination layout (reindexed to
start at `dst.cells.length + 1`).  Returns the new layout and the index of
the copied submission cell. -/
def copy_tree (dst : Layout) (src : Layout) (root : Nat) (newName : String) :
    Layout × Nat :=
  let offset := dst.cells.length + 1
  let srcRoot := src.cellAt root
  let newRoot : Cell :=
    ⟨newName, srcRoot.insts.map (reindexInst offset), srcRoot.bbox, srcRoot.pins⟩
  (⟨dst.cells ++ newRoot :: src.cells.map (copyCell offset)⟩, dst.cells.length)

/-- `create_laser_and_heater`: the bend radius comes from the waveguide
specification (fallback 60); a missing laser cell raises.  The laser, heater,
pad placement and routing act on the piclet cell through the external kernel
and contribute nothing the claims depend on, so this model returns the
radius the caller uses. -/
def create_laser_and_heater (env : Env) (wavelength : Nat) : Except String Int :=
  if env.laserOk then
    .ok env.radius
  else
    .error ("Cannot import cell ebeam_dream_Laser_SiN_" ++ toString wavelength ++ "_BB")

/-- The observable outcome of one `create_simplified_piclet` run: where the
inlet pin went (cell index, position, width, facing), whether the fallback
path ran, the transform at which the submission instance was inserted, and
whether the FaML reference path was placed or only warned about. -/
structure Outcome where
  picletCell : Nat
  subCopy : Nat
  pinTarget : Nat
  pinPos : Pt
  pinWidth : Int
  pinRot : Int
  fallbackUsed : Bool
  submissionTrans : Trans
  famlWarning : Bool
  famlTrans : Option Trans
deriving DecidableEq, Repr

/-- `create_simplified_piclet(topcell, submission_cell, submission_name,
wavelength)`: create the piclet cell, laser and heater (raising when the
laser cell is unavailable), copy the submission tree into the piclet layout,
walk the copy for a `port_SiN` marker; on a hit, add the `opt_laser` pin to
the found cell at `(port_bbox.left - port_bbox.left, 0)` facing 180; on a
miss, add it to the copied submission cell at `(submission_bbox.width()//2,
0)` facing 0; in both branches a missing Y-branch raises, the submission
instance is inserted at `(ybranch.bbox().right + 2*radius*1e3,
ybranch.bbox().center().y + 250e3)`, and a missing FaML cell only records a
warning. -/
def create_simplified_piclet (env : Env) (w : World) (topIdx : Nat)
    (subRoot : Nat) (name : String) (wavelength : Nat) :
    Except String (World × Outcome) :=
  let p := w.ly.createCell ("piclet_" ++ name ++ "_" ++ toString wavelength)
  let picletCell := p.2
  let ly2 := p.1.addInst topIdx ⟨picletCell, ⟨.r0, 0, 0⟩⟩
  match create_laser_and_heater env wavelength with
  | .error e => .error e
  | .ok radius =>
    let submission_bbox := (w.subLy.cellAt subRoot).bbox
    let c := copy_tree ly2 w.subLy subRoot ("submission_" ++ name)
    let ly3 := c.1
    let subCopy := c.2
    match find_port_sin_cell_and_position ly3 subCopy with
    | some (portCell, _portY) =>
      let port_bbox := (ly3.cellAt portCell).bbox
      let pin_x := port_bbox.left - port_bbox.left
      let pin_y : Int := 0
      let ly4 := make_pin ly3 portCell "opt_laser" ⟨pin_x, pin_y⟩ 800 180
      if env.ybranchOk then
        let student_x := env.ybranchBBox.right + 2 * radius * 1000
        let student_y := env.ybranchBBox.center.y + 250000
        let subTrans : Trans := ⟨.r0, student_x, student_y⟩
        let ly5 := ly4.addInst picletCell ⟨subCopy, subTrans⟩
        if env.famlOk then
          .ok (⟨w.subLy, ly5⟩,
            ⟨picletCell, subCopy, portCell, ⟨pin_x, pin_y⟩, 800, 180, false,
             subTrans, false, some ⟨.r180, die_width / 2, 0⟩⟩)
        else
          .ok (⟨w.subLy, ly5⟩,
            ⟨picletCell, subCopy, portCell, ⟨pin_x, pin_y⟩, 800, 180, false,
             subTrans, true, none⟩)
      else .error "Cannot load Y-branch cell"
    | none =>
      let pinPos : Pt := ⟨submission_bbox.width / 2, 0⟩
      let ly4 := make_pin ly3 subCopy "opt_laser" pinPos 800 0
      if env.ybranchOk then
        let student_x := env.ybranchBBox.right + 2 * radius * 1000
        let student_y := env.ybranchBBox.center.y + 250000
        let subTrans : Trans := ⟨.r0, student_x, student_y⟩
        let ly5 := ly4.addInst picletCell ⟨subCopy, subTrans⟩
        if env.famlOk then
          .ok (⟨w.subLy, ly5⟩,
            ⟨picletCell, subCopy, subCopy, pinPos, 800, 0, true,
             subTrans, false, some ⟨.r180, die_width / 2, 0⟩⟩)
        else
          .ok (⟨w.subLy, ly5⟩,
            ⟨picletCell, subCopy, subCopy, pinPos, 800, 0, true,
             subTrans, true, none⟩)
      else .error "Cannot load Y-branch cell"

/-- One entry of the list built by `load_submission_designs`: filename and
the loaded layout with its single top cell. -/
structure SubmissionFile where
  filename : String
  subLy : Layout
  root : Nat
deriving DecidableEq, Repr

/-- `new_layout(...)` for one piclet: a fresh layout holding one top cell. -/
def newPicletWorld (subLy : Layout) : World × Nat :=
  (⟨subLy, ⟨[⟨"top", [], ⟨0, 0, 0, 0⟩, []⟩]⟩⟩, 0)

/-- The driver loop of `generate_piclets`: it iterates over
`submissions[0:1]` — the slice keeps only the first entry — and for each
entry composes a piclet inside `try/except`, recording failure and
continuing instead of aborting the run.  Returns the processed submissions
with their success flag. -/
def generate_piclets (env : Env) (submissions : List SubmissionFile) :
    List (String × Bool) :=
  (submissions.take 1).map (fun s =>
    let p := newPicletWorld s.subLy
    match create_simplified_piclet env p.1 p.2 s.root s.filename 1310 with
    | .ok _ => (s.filename, true)
    | .error _ => (s.filename, false))


/-- The step function of the fold in `findAux`. -/
def findStep (ly : Layout) (fuel : Nat) (acc : Option (Nat × Int) × List Nat)
    (i : Inst) : Option (Nat × Int) × List Nat :=
  match acc with
  | (some r, v) => (some r, v)
  | (none, v) => findAux ly fuel i.child v

theorem foldl_findStep_some (ly : Layout) (fuel : Nat) (l : List Inst)
    (r : Nat × Int) (v : List Nat) :
    l.foldl (findStep ly fuel) (some r, v) = (some r, v) := by
  induction l with
  | nil => rfl
  | cons i rest ih => simpa [findStep] using ih

theorem foldl_findStep_none (ly : Layout) (fuel : Nat) (l : List Inst) :
    ∀ v : List Nat, l.foldl (findStep ly fuel) (none, v) = findList ly fuel l v := by
  induction l with
  | nil => intro v; rfl
  | cons i rest ih =>
    intro v
    simp only [List.foldl_cons, findList]
    have hstep : findStep ly fuel (none, v) i = findAux ly fuel i.child v := rfl
    rw [hstep]
    cases h : findAux ly fuel i.child v with
    | mk o v' =>
      cases o with
      | some r => exact foldl_findStep_some ly fuel rest r v'
      | none => exact ih v'

/-- One unfolding of `findAux` at positive fuel, with the fold expressed as
`findList`. -/
theorem findAux_succ (ly : Layout) (fuel : Nat) (idx : Nat) (visited : List Nat) :
    findAux ly (fuel + 1) idx visited =
      if idx ∈ visited then (none, visited)
      else
        match firstPortSiN ly (ly.cellAt idx).insts with
        | some r => (some r, idx :: visited)
        | none => findList ly fuel (ly.cellAt idx).insts (idx :: visited) := by
  conv_lhs => rw [findAux]
  by_cases h : idx ∈ visited
  · simp [h]
  · simp only [h, if_false]
    cases hf : firstPortSiN ly (ly.cellAt idx).insts with
    | some r => rfl
    | none => exact foldl_findStep_none ly fuel (ly.cellAt idx).insts (idx :: visited)

/-- The visited-set only grows: the Python mutates one shared `set` in
place, so every call returns a superset of what it was given. -/
theorem visited_mono (ly : Layout) :
    ∀ fuel : Nat,
      (∀ (idx : Nat) (visited : List Nat), visited ⊆ (findAux ly fuel idx visited).2) ∧
      (∀ (l : List Inst) (visited : List Nat), visited ⊆ (findList ly fuel l visited).2) := by
  intro fuel
  induction fuel with
  | zero =>
    constructor
    · intro idx visited
      simp [findAux]
    · intro l
      induction l with
      | nil => intro visited; simp [findList]
      | cons i rest ih =>
        intro visited
        simp only [findList]
        have h0 : findAux ly 0 i.child visited = (none, visited) := rfl
        rw [h0]
        exact ih visited
  | succ n ih =>
    have hA : ∀ (idx : Nat) (visited : List Nat),
        visited ⊆ (findAux ly (n + 1) idx visited).2 := by
      intro idx visited
      rw [findAux_succ]
      by_cases hm : idx ∈ visited
      · simp [hm]
      · simp only [hm, if_false]
        cases hf : firstPortSiN ly (ly.cellAt idx).insts with
        | some r => exact List.subset_cons_self idx visited
        | none =>
          exact (List.subset_cons_self idx visited).trans
            (ih.2 (ly.cellAt idx).insts (idx :: visited))
    refine ⟨hA, ?_⟩
    intro l
    induction l with
    | nil => intro visited; simp [findList]
    | cons i rest ihR =>
      intro visited
      simp only [findList]
      cases h : findAux ly (n + 1) i.child visited with
      | mk o v =>
        have hv : visited ⊆ v := by
          have := hA i.child visited
          rw [h] at this
          exact this
        cases o with
        | some r => exact hv
        | none => exact hv.trans (ihR v)

/-- The cells of the layout not yet in the visited-set; its cardinality is
the walker's termination measure. -/
def unvisited (ly : Layout) (visited : List Nat) : Finset ℕ :=
  (Finset.range ly.cells.length).filter (fun i => i ∉ visited)

theorem unvisited_anti (ly : Layout) {v v' : List Nat} (h : v ⊆ v') :
    unvisited ly v' ⊆ unvisited ly v := by
  intro i hi
  simp only [unvisited, Finset.mem_filter] at hi ⊢
  exact ⟨hi.1, fun hm => hi.2 (h hm)⟩

theorem unvisited_cons (ly : Layout) {idx : Nat} {visited : List Nat} :
    unvisited ly (idx :: visited) = (unvisited ly visited).erase idx := by
  ext i
  simp only [unvisited, Finset.mem_filter, Finset.mem_erase, List.mem_cons,
    Finset.mem_range]
  tauto

theorem card_unvisited_cons_lt (ly : Layout) {idx : Nat} {visited : List Nat}
    (h1 : idx < ly.cells.length) (h2 : idx ∉ visited) :
    (unvisited ly (idx :: visited)).card < (unvisited ly visited).card := by
  rw [unvisited_cons]
  exact Finset.card_erase_lt_of_mem (by
    simp [unvisited, Finset.mem_filter, Finset.mem_range, h1, h2])

theorem cellAt_of_ge (ly : Layout) {idx : Nat} (h : ly.cells.length ≤ idx) :
    ly.cellAt idx = emptyCell := by
  simp only [Layout.cellAt, List.getD_eq_getElem?_getD]
  rw [List.getElem?_eq_none h]
  rfl

/-- Enough fuel makes the walker's answer fuel-independent: one more unit of
fuel changes nothing once the fuel exceeds the number of unvisited cells.
This is the termination argument of the visited-set. -/
theorem stable (ly : Layout) :
    ∀ fuel : Nat,
      (∀ (idx : Nat) (visited : List Nat), (unvisited ly visited).card < fuel →
        findAux ly fuel idx visited = findAux ly (fuel + 1) idx visited) ∧
      (∀ (l : List Inst) (visited : List Nat), (unvisited ly visited).card < fuel →
        findList ly fuel l visited = findList ly (fuel + 1) l visited) := by
  intro fuel
  induction fuel with
  | zero =>
    constructor
    · intro _ _ h; exact absurd h (Nat.not_lt_zero _)
    · intro _ _ h; exact absurd h (Nat.not_lt_zero _)
  | succ n ih =>
    obtain ⟨_, ihL⟩ := ih
    have hA : ∀ (idx : Nat) (visited : List Nat),
        (unvisited ly visited).card < n + 1 →
        findAux ly (n + 1) idx visited = findAux ly (n + 2) idx visited := by
      intro idx visited hcard
      rw [findAux_succ, findAux_succ]
      by_cases hm : idx ∈ visited
      · simp [hm]
      · simp only [hm, if_false]
        cases hf : firstPortSiN ly (ly.cellAt idx).insts with
        | some r => rfl
        | none =>
          by_cases hv : idx < ly.cells.length
          · exact ihL (ly.cellAt idx).insts (idx :: visited)
              (lt_of_lt_of_le (card_unvisited_cons_lt ly hv hm)
                (Nat.lt_succ_iff.mp hcard))
          · rw [cellAt_of_ge ly (le_of_not_lt hv)]
            simp [emptyCell, findList]
    refine ⟨hA, ?_⟩
    intro l
    induction l with
    | nil => intro visited _; rfl
    | cons i rest ihR =>
      intro visited hcard
      simp only [findList]
      rw [← hA i.child visited hcard]
      cases h : findAux ly (n + 1) i.child visited with
      | mk o v =>
        have hsub : visited ⊆ v := by
          have := (visited_mono ly (n + 1)).1 i.child visited
          rw [h] at this
          exact this
        cases o with
        | some r => rfl
        | none =>
          exact ihR v (lt_of_le_of_lt
            (Finset.card_le_card (unvisited_anti ly hsub)) hcard)

theorem findAux_stable_of_le (ly : Layout) (idx : Nat) (visited : List Nat)
    (fuel : Nat) (h : (unvisited ly visited).card < fuel) :
    ∀ m : Nat, fuel ≤ m → findAux ly m idx visited = findAux ly fuel idx visited := by
  intro m hm
  induction m, hm using Nat.le_induction with
  | base => rfl
  | succ m hfm ih =>
    exact ((stable ly m).1 idx visited (lt_of_lt_of_le h hfm)).symm.trans ih

theorem unvisited_nil_card (ly : Layout) :
    (unvisited ly []).card = ly.cells.length := by
  have h : unvisited ly [] = Finset.range ly.cells.length := by
    ext i
    simp [unvisited]
  rw [h, Finset.card_range]

theorem listPrefixOf_iff {α : Type} [DecidableEq α] :
    ∀ p t : List α, listPrefixOf p t = true ↔ p <+: t := by
  intro p
  induction p with
  | nil => intro t; simp [listPrefixOf]
  | cons a as ih =>
    intro t
    cases t with
    | nil => simp [listPrefixOf]
    | cons b bs =>
      simp only [listPrefixOf, List.cons_prefix_cons]
      by_cases hab : a = b
      · simp [hab, ih bs]
      · simp [hab]

theorem listSubstr_iff {α : Type} [DecidableEq α] (p : List α) :
    ∀ t : List α, listSubstr p t = true ↔ p <:+: t := by
  intro t
  induction t with
  | nil =>
    simp only [listSubstr]
    rw [listPrefixOf_iff]
    constructor
    · intro h
      exact h.isInfix
    · intro h
      obtain ⟨s, t, hst⟩ := h
      have hl := congrArg List.length hst
      simp only [List.length_append, List.length_nil] at hl
      have hp : p = [] := List.length_eq_zero.mp (by omega)
      rw [hp]
  | cons b bs ih =>
    simp only [listSubstr, Bool.or_eq_true, listPrefixOf_iff, ih,
      List.infix_cons_iff]

/-- A direct-scan hit names an instance of the scanned list, and the
reported y is that instance's bounding-box center y (the instance's own
transform applied, nothing else). -/
theorem firstPortSiN_sound (ly : Layout) :
    ∀ (l : List Inst) (ci : Nat) (y : Int), firstPortSiN ly l = some (ci, y) →
      ∃ i ∈ l, i.child = ci ∧ matchesPortSiN (ly.cellAt ci).name = true ∧
        y = (i.bboxIn ly).center.y := by
  intro l
  induction l with
  | nil => intro ci y h; simp [firstPortSiN] at h
  | cons i rest ih =>
    intro ci y h
    by_cases hm : matchesPortSiN (ly.cellAt i.child).name = true
    · rw [firstPortSiN, if_pos hm] at h
      injection h with h'
      rw [Prod.mk.injEq] at h'
      obtain ⟨h1, h2⟩ := h'
      exact ⟨i, List.mem_cons_self i rest, h1, h1 ▸ hm, h2.symm⟩
    · rw [firstPortSiN, if_neg hm] at h
      obtain ⟨j, hj, hrest⟩ := ih ci y h
      exact ⟨j, List.mem_cons_of_mem i hj, hrest⟩

/-- Provenance of a walker hit: whatever the walker returns came from a
direct scan somewhere, so the reported y is the matched instance's
bounding-box center y in the coordinates of its immediate parent cell — the
transforms of the instantiation path from the search root are not applied. -/
theorem findAux_found (ly : Layout) :
    ∀ fuel : Nat,
      (∀ (idx : Nat) (visited : List Nat) (ci : Nat) (y : Int) (v : List Nat),
        findAux ly fuel idx visited = (some (ci, y), v) →
        ∃ pidx, ∃ i ∈ (ly.cellAt pidx).insts, i.child = ci ∧
          matchesPortSiN (ly.cellAt ci).name = true ∧ y = (i.bboxIn ly).center.y) ∧
      (∀ (l : List Inst) (visited : List Nat) (ci : Nat) (y : Int) (v : List Nat),
        findList ly fuel l visited = (some (ci, y), v) →
        ∃ pidx, ∃ i ∈ (ly.cellAt pidx).insts, i.child = ci ∧
          matchesPortSiN (ly.cellAt ci).name = true ∧ y = (i.bboxIn ly).center.y) := by
  intro fuel
  induction fuel with
  | zero =>
    constructor
    · intro idx visited ci y v h
      simp [findAux] at h
    · intro l
      induction l with
      | nil => intro visited ci y v h; simp [findList] at h
      | cons i rest ih =>
        intro visited ci y v h
        simp only [findList] at h
        rw [show findAux ly 0 i.child visited = (none, visited) from rfl] at h
        exact ih visited ci y v h
  | succ n ih =>
    have hA : ∀ (idx : Nat) (visited : List Nat) (ci : Nat) (y : Int) (v : List Nat),
        findAux ly (n + 1) idx visited = (some (ci, y), v) →
        ∃ pidx, ∃ i ∈ (ly.cellAt pidx).insts, i.child = ci ∧
          matchesPortSiN (ly.cellAt ci).name = true ∧ y = (i.bboxIn ly).center.y := by
      intro idx visited ci y v h
      rw [findAux_succ] at h
      by_cases hm : idx ∈ visited
      · simp [hm] at h
      · rw [if_neg hm] at h
        split at h
        · next r heq =>
          injection h with h1 h2
          injection h1 with h1
          obtain ⟨i, hi, hrest⟩ := firstPortSiN_sound ly _ ci y (h1 ▸ heq)
          exact ⟨idx, i, hi, hrest⟩
        · next heq => exact ih.2 _ _ _ _ _ h
    refine ⟨hA, ?_⟩
    intro l
    induction l with
    | nil => intro visited ci y v h; simp [findList] at h
    | cons i rest ihR =>
      intro visited ci y v h
      simp only [findList] at h
      cases hfa : findAux ly (n + 1) i.child visited with
      | mk o v' =>
        rw [hfa] at h
        cases o with
        | some r =>
          injection h with h1 h2
          injection h1 with h1
          exact hA i.child visited ci y v' (h1 ▸ hfa)
        | none => exact ihR v' ci y v h

/-- If every cell at index ≥ n only instantiates cells at index ≥ n, a
walker search started at index ≥ n can only report a cell at index ≥ n. -/
theorem findAux_region (ly : Layout) (n : Nat)
    (hreg : ∀ j : Nat, n ≤ j → ∀ i ∈ (ly.cellAt j).insts, n ≤ i.child) :
    ∀ fuel : Nat,
      (∀ (idx : Nat) (visited : List Nat) (ci : Nat) (y : Int) (v : List Nat),
        n ≤ idx → findAux ly fuel idx visited = (some (ci, y), v) → n ≤ ci) ∧
      (∀ (l : List Inst) (visited : List Nat) (ci : Nat) (y : Int) (v : List Nat),
        (∀ i ∈ l, n ≤ i.child) →
        findList ly fuel l visited = (some (ci, y), v) → n ≤ ci) := by
  intro fuel
  induction fuel with
  | zero =>
    constructor
    · intro idx visited ci y v _ h
      simp [findAux] at h
    · intro l
      induction l with
      | nil => intro visited ci y v _ h; simp [findList] at h
      | cons i rest ih =>
        intro visited ci y v hl h
        simp only [findList] at h
        rw [show findAux ly 0 i.child visited = (none, visited) from rfl] at h
        exact ih visited ci y v (fun j hj => hl j (List.mem_cons_of_mem i hj)) h
  | succ n' ih =>
    have hA : ∀ (idx : Nat) (visited : List Nat) (ci : Nat) (y : Int) (v : List Nat),
        n ≤ idx → findAux ly (n' + 1) idx visited = (some (ci, y), v) → n ≤ ci := by
      intro idx visited ci y v hidx h
      rw [findAux_succ] at h
      by_cases hm : idx ∈ visited
      · simp [hm] at h
      · rw [if_neg hm] at h
        split at h
        · next r heq =>
          injection h with h1 h2
          injection h1 with h1
          obtain ⟨i, hi, hchild, _⟩ := firstPortSiN_sound ly _ ci y (h1 ▸ heq)
          exact hchild ▸ hreg idx hidx i hi
        · next heq =>
          exact ih.2 _ _ _ _ _ (hreg idx hidx) h
    refine ⟨hA, ?_⟩
    intro l
    induction l with
    | nil => intro visited ci y v _ h; simp [findList] at h
    | cons i rest ihR =>
      intro visited ci y v hl h
      simp only [findList] at h
      cases hfa : findAux ly (n' + 1) i.child visited with
      | mk o v' =>
        rw [hfa] at h
        cases o with
        | some r =>
          injection h with h1 h2
          injection h1 with h1
          exact hA i.child visited ci y v' (hl i (List.mem_cons_self i rest)) (h1 ▸ hfa)
        | none =>
          exact ihR v' ci y v (fun j hj => hl j (List.mem_cons_of_mem i hj)) h

/-- Direct children are scanned before any recursion: a hit in the direct
scan of the search root is the walker's answer. -/
theorem find_direct (ly : Layout) (idx : Nat) (r : Nat × Int)
    (h : firstPortSiN ly (ly.cellAt idx).insts = some r) :
    find_port_sin_cell_and_position ly idx = some r := by
  unfold find_port_sin_cell_and_position
  rw [findAux_succ]
  simp [h]

theorem getD_mem_or_default {α : Type} (l : List α) (k : Nat) (d : α) :
    l.getD k d = d ∨ l.getD k d ∈ l := by
  by_cases hk : k < l.length
  · right
    rw [List.getD_eq_getElem l d hk]
    exact List.getElem_mem hk
  · left
    simp only [List.getD_eq_getElem?_getD]
    rw [List.getElem?_eq_none (le_of_not_lt hk)]
    rfl

/-- Every cell of the region created by `copy_tree` (the fresh submission
cell and the copies of the source tree) only instantiates cells inside that
region. -/
theorem copy_tree_region (dst src : Layout) (root : Nat) (nm : String) :
    ∀ j : Nat, dst.cells.length ≤ j →
      ∀ i ∈ ((copy_tree dst src root nm).1.cellAt j).insts,
        dst.cells.length ≤ i.child := by
  intro j hj i hi
  set n := dst.cells.length with hn
  have hreg : ∀ c ∈ (⟨nm, (src.cellAt root).insts.map (reindexInst (n + 1)),
      (src.cellAt root).bbox, (src.cellAt root).pins⟩ : Cell) ::
      src.cells.map (copyCell (n + 1)),
      ∀ i' ∈ c.insts, n ≤ i'.child := by
    intro c hc i' hi'
    rcases List.mem_cons.mp hc with hc | hc
    · subst hc
      simp only [List.mem_map] at hi'
      obtain ⟨i0, _, hi0⟩ := hi'
      rw [← hi0]
      simp [reindexInst]
      omega
    · obtain ⟨c0, _, hc0⟩ := List.mem_map.mp hc
      rw [← hc0] at hi'
      simp only [copyCell, List.mem_map] at hi'
      obtain ⟨i0, _, hi0⟩ := hi'
      rw [← hi0]
      simp [reindexInst]
      omega
  have hcell : (copy_tree dst src root nm).1.cellAt j =
      ((⟨nm, (src.cellAt root).insts.map (reindexInst (n + 1)),
        (src.cellAt root).bbox, (src.cellAt root).pins⟩ : Cell) ::
        src.cells.map (copyCell (n + 1))).getD (j - n) emptyCell := by
    simp only [copy_tree, Layout.cellAt]
    exact List.getD_append_right _ _ _ _ hj
  rw [hcell] at hi
  rcases getD_mem_or_default ((⟨nm, (src.cellAt root).insts.map (reindexInst (n + 1)),
      (src.cellAt root).bbox, (src.cellAt root).pins⟩ : Cell) ::
      src.cells.map (copyCell (n + 1))) (j - n) emptyCell with hd | hd
  · rw [hd] at hi
    simp [emptyCell] at hi
  · exact hreg _ hd i hi

theorem fst_eq_pair {α β : Type} (p : α × β) {a : α} (h : p.1 = a) : p = (a, p.2) := by
  rw [← h]

/-- Everything a successful `create_simplified_piclet` run guarantees:
required parts were available, the submission layout is returned untouched,
the submission instance transform, the FaML warning behaviour, and the two
pin-attachment modes (marker found: pin at the local origin of a cell inside
the copied tree; marker missed: pin at half the submission bounding-box
width on the copied submission cell itself). -/
theorem create_ok_char (env : Env) (w : World) (topIdx subRoot : Nat)
    (name : String) (wl : Nat) (w' : World) (out : Outcome)
    (h : create_simplified_piclet env w topIdx subRoot name wl = .ok (w', out)) :
    env.laserOk = true ∧ env.ybranchOk = true ∧
    w'.subLy = w.subLy ∧
    out.submissionTrans = ⟨.r0, env.ybranchBBox.right + 2 * env.radius * 1000,
      env.ybranchBBox.center.y + 250000⟩ ∧
    out.famlWarning = !env.famlOk ∧
    (out.famlTrans = if env.famlOk = true then some ⟨.r180, die_width / 2, 0⟩ else none) ∧
    out.pinWidth = 800 ∧
    out.subCopy = w.ly.cells.length + 1 ∧
    ((out.fallbackUsed = false ∧ out.pinPos = ⟨0, 0⟩ ∧ out.pinRot = 180 ∧
        w.ly.cells.length + 1 ≤ out.pinTarget) ∨
      (out.fallbackUsed = true ∧
        out.pinPos = ⟨(w.subLy.cellAt subRoot).bbox.width / 2, 0⟩ ∧
        out.pinRot = 0 ∧ out.pinTarget = out.subCopy)) := by
  simp only [create_simplified_piclet, create_laser_and_heater] at h
  by_cases hl : env.laserOk
  · simp only [hl, if_true] at h
    split at h
    · next portCell portY heq =>
      by_cases hyb : env.ybranchOk
      · rw [if_pos hyb] at h
        unfold find_port_sin_cell_and_position at heq
        have hfa := fst_eq_pair _ heq
        have hpc := (findAux_region _ _ (copy_tree_region _ _ _ _) _).1 _ _ _ _ _
          (le_of_eq rfl) hfa
        simp only [Layout.addInst, Layout.setCell, Layout.createCell,
          List.length_set, List.length_append, List.length_cons,
          List.length_nil] at hpc
        by_cases hfm : env.famlOk
        · rw [if_pos hfm] at h
          simp only [Except.ok.injEq, Prod.mk.injEq] at h
          obtain ⟨hw, hout⟩ := h
          subst hw hout
          refine ⟨hl, hyb, rfl, rfl, by simp [hfm], by simp [hfm], rfl, ?_, ?_⟩
          · simp [copy_tree, Layout.addInst, Layout.setCell, Layout.createCell]
          · exact Or.inl ⟨rfl, by simp, rfl, hpc⟩
        · rw [if_neg hfm] at h
          simp only [Except.ok.injEq, Prod.mk.injEq] at h
          obtain ⟨hw, hout⟩ := h
          subst hw hout
          refine ⟨hl, hyb, rfl, rfl, by simp [hfm], by simp [hfm], rfl, ?_, ?_⟩
          · simp [copy_tree, Layout.addInst, Layout.setCell, Layout.createCell]
          · exact Or.inl ⟨rfl, by simp, rfl, hpc⟩
      · rw [if_neg hyb] at h
        simp at h
    · next heq =>
      by_cases hyb : env.ybranchOk
      · rw [if_pos hyb] at h
        by_cases hfm : env.famlOk
        · rw [if_pos hfm] at h
          simp only [Except.ok.injEq, Prod.mk.injEq] at h
          obtain ⟨hw, hout⟩ := h
          subst hw hout
          refine ⟨hl, hyb, rfl, rfl, by simp [hfm], by simp [hfm], rfl, ?_, ?_⟩
          · simp [copy_tree, Layout.addInst, Layout.setCell, Layout.createCell]
          · exact Or.inr ⟨rfl, rfl, rfl, rfl⟩
        · rw [if_neg hfm] at h
          simp only [Except.ok.injEq, Prod.mk.injEq] at h
          obtain ⟨hw, hout⟩ := h
          subst hw hout
          refine ⟨hl, hyb, rfl, rfl, by simp [hfm], by simp [hfm], rfl, ?_, ?_⟩
          · simp [copy_tree, Layout.addInst, Layout.setCell, Layout.createCell]
          · exact Or.inr ⟨rfl, rfl, rfl, rfl⟩
      · rw [if_neg hyb] at h
        simp at h
  · simp [hl] at h

/-- A missing laser cell is fatal: `create_laser_and_heater` raises and the
whole composition aborts with that error. -/
theorem create_laser_missing (env : Env) (w : World) (topIdx subRoot : Nat)
    (name : String) (wl : Nat) (h : env.laserOk = false) :
    create_simplified_piclet env w topIdx subRoot name wl =
      .error ("Cannot import cell ebeam_dream_Laser_SiN_" ++ toString wl ++ "_BB") := by
  simp [create_simplified_piclet, create_laser_and_heater, h]

/-- A missing Y-branch cell is fatal in both branches. -/
theorem create_ybranch_missing (env : Env) (w : World) (topIdx subRoot : Nat)
    (name : String) (wl : Nat) (hl : env.laserOk = true) (hy : env.ybranchOk = false) :
    create_simplified_piclet env w topIdx subRoot name wl =
      .error "Cannot load Y-branch cell" := by
  simp only [create_simplified_piclet, create_laser_and_heater, hl, if_true]
  split
  · rw [if_neg (by simp [hy])]
  · rw [if_neg (by simp [hy])]

/-- When the required parts are available the composition always completes,
whatever the walker finds. -/
theorem create_completes (env : Env) (w : World) (topIdx subRoot : Nat)
    (name : String) (wl : Nat) (hl : env.laserOk = true) (hy : env.ybranchOk = true) :
    ∃ w' out, create_simplified_piclet env w topIdx subRoot name wl = .ok (w', out) := by
  simp only [create_simplified_piclet, create_laser_and_heater, hl, if_true]
  split
  · rw [if_pos (by simp [hy])]
    by_cases hfm : env.famlOk
    · rw [if_pos hfm]
      exact ⟨_, _, rfl⟩
    · rw [if_neg hfm]
      exact ⟨_, _, rfl⟩
  · rw [if_pos (by simp [hy])]
    by_cases hfm : env.famlOk
    · rw [if_pos hfm]
      exact ⟨_, _, rfl⟩
    · rw [if_neg hfm]
      exact ⟨_, _, rfl⟩

/-! Concrete fixtures used by the claim witnesses and counterexamples. -/

def exT0 : Trans := ⟨.r0, 0, 0⟩

/-- Marker cell at local (0,0) inside sub-cell `S`; `S` instantiated at
(5000,-1000) inside `A`; `A` instantiated at the origin in `root`: the
marker sits two levels below the root under a (5000,-1000) offset. -/
def lyNested : Layout := ⟨[
  ⟨"root", [⟨1, exT0⟩], ⟨4900, -1050, 5100, -950⟩, []⟩,
  ⟨"A", [⟨2, ⟨.r0, 5000, -1000⟩⟩], ⟨4900, -1050, 5100, -950⟩, []⟩,
  ⟨"S", [⟨3, exT0⟩], ⟨-100, -50, 100, 50⟩, []⟩,
  ⟨"port_SiN_800", [], ⟨-100, -50, 100, 50⟩, []⟩]⟩

/-- Cell A instantiates Cell B and Cell B instantiates Cell A; no marker
anywhere. -/
def lyCyclic : Layout := ⟨[
  ⟨"A", [⟨1, exT0⟩], ⟨0, 0, 10, 10⟩, []⟩,
  ⟨"B", [⟨0, exT0⟩], ⟨0, 0, 10, 10⟩, []⟩]⟩

/-- A marker as a direct child of `top` (second in scan order) and another
marker two levels deeper below the first child. -/
def lyPriority : Layout := ⟨[
  ⟨"top", [⟨1, exT0⟩, ⟨2, ⟨.r0, 10, 20⟩⟩], ⟨-10, -10, 30, 30⟩, []⟩,
  ⟨"mid", [⟨4, exT0⟩], ⟨-2, -2, 2, 2⟩, []⟩,
  ⟨"port_SiN_direct", [], ⟨-10, -10, 10, 10⟩, []⟩,
  ⟨"port_SiN_deep", [], ⟨-2, -2, 2, 2⟩, []⟩,
  ⟨"deepbox", [⟨3, exT0⟩], ⟨-2, -2, 2, 2⟩, []⟩]⟩

/-- A hierarchy whose only candidate's name strictly contains "port_SiN". -/
def lyV2 : Layout := ⟨[
  ⟨"top", [⟨1, exT0⟩], ⟨-5, -5, 5, 5⟩, []⟩,
  ⟨"my_port_SiN_v2", [], ⟨-5, -5, 5, 5⟩, []⟩]⟩

/-- A hierarchy whose only candidate is named "Port_SiN" (capital P). -/
def lyCap : Layout := ⟨[
  ⟨"top", [⟨1, exT0⟩], ⟨-5, -5, 5, 5⟩, []⟩,
  ⟨"Port_SiN", [], ⟨-5, -5, 5, 5⟩, []⟩]⟩

/-- All parts available, pdk radius 60 µm, a concrete Y-branch bbox. -/
def envOk : Env := ⟨true, some 60, true, ⟨0, -10, 100, 10⟩, true⟩

def envNoLaser : Env := ⟨false, some 60, true, ⟨0, -10, 100, 10⟩, true⟩

/-- A submission whose marker cell's bounding box has left edge 100 and
vertical center 50 (so the box is not at the cell's local origin). -/
def subLyMarker : Layout := ⟨[
  ⟨"student_top", [⟨1, exT0⟩], ⟨100, -50, 300, 150⟩, []⟩,
  ⟨"abc_port_SiN_x", [], ⟨100, -50, 300, 150⟩, []⟩]⟩

def wMarker : World := ⟨subLyMarker, ⟨[⟨"top", [], ⟨0, 0, 0, 0⟩, []⟩]⟩⟩

/-- A submission with no marker, bounding box from 1000 to 3000 horizontally
(horizontal center 2000, width 2000). -/
def subLyNoMarker : Layout := ⟨[⟨"student_top", [], ⟨1000, -200, 3000, 200⟩, []⟩]⟩

def wNoMarker : World := ⟨subLyNoMarker, ⟨[⟨"top", [], ⟨0, 0, 0, 0⟩, []⟩]⟩⟩

/-- The (successful) run of the composition on the marker submission. -/
def runMarker : World × Outcome :=
  (create_simplified_piclet envOk wMarker 0 0 "s" 1310).toOption.getD
    (⟨⟨[]⟩, ⟨[]⟩⟩, ⟨0, 0, 0, ⟨0, 0⟩, 0, 0, false, exT0, false, none⟩)

/-- The (successful) run of the composition on the markerless submission. -/
def runNoMarker : World × Outcome :=
  (create_simplified_piclet envOk wNoMarker 0 0 "s" 1310).toOption.getD
    (⟨⟨[]⟩, ⟨[]⟩⟩, ⟨0, 0, 0, ⟨0, 0⟩, 0, 0, false, exT0, false, none⟩)

def subFileA : SubmissionFile := ⟨"alpha", subLyNoMarker, 0⟩

def subFileB : SubmissionFile := ⟨"beta", subLyMarker, 0⟩

/-! The claims. -/

/-- Claim C1, counterexample: with the marker at local (0,0) inside sub-cell
`S` instantiated at (5000,-1000) two levels below the root, the walker
reports y = 0 (the marker instance's bounding-box center inside `S`), not
the absolute -1000 the claim requires (and it reports no x at all). -/
theorem claim1_counterexample :
    find_port_sin_cell_and_position lyNested 0 = some (3, 0) ∧ (0 : Int) ≠ -1000 := by
  decide

/-- Claim C1 (amended): a walker hit returns only the y-coordinate of the
matched instance's bounding-box center, computed in the coordinates of the
instance's immediate parent cell — only the matched instance's own transform
is applied; the transforms of the instantiation path from the root are not
accumulated. -/
theorem claim1_walker_y_is_parent_local : ∀ (ly : Layout) (idx ci : Nat) (y : Int),
    find_port_sin_cell_and_position ly idx = some (ci, y) →
    ∃ pidx, ∃ i ∈ (ly.cellAt pidx).insts, i.child = ci ∧
      matchesPortSiN (ly.cellAt ci).name = true ∧ y = (i.bboxIn ly).center.y := by
  intro ly idx ci y h
  unfold find_port_sin_cell_and_position at h
  exact (findAux_found ly _).1 idx [] ci y _ (fst_eq_pair _ h)

/-- Claim C1, witness: the amended statement instantiated on the nested
fixture. -/
theorem claim1_witness :
    ∃ pidx, ∃ i ∈ (lyNested.cellAt pidx).insts, i.child = 3 ∧
      matchesPortSiN (lyNested.cellAt 3).name = true ∧
      (0 : Int) = (i.bboxIn lyNested).center.y :=
  claim1_walker_y_is_parent_local lyNested 0 3 0 (by decide)

/-- Claim C2, counterexample: the found component's bounding box has left
edge 100 and vertical center 50, yet the pin is attached at (0,0), not at
(bbox.left, bbox.center().y) = (100, 50). -/
theorem claim2_counterexample :
    (create_simplified_piclet envOk wMarker 0 0 "s" 1310).map
        (fun p => (p.2.fallbackUsed, p.2.pinPos)) = .ok (false, ⟨0, 0⟩) ∧
    (subLyMarker.cellAt 1).bbox.left = 100 ∧
    (subLyMarker.cellAt 1).bbox.center.y = 50 ∧
    (⟨0, 0⟩ : Pt) ≠ (⟨100, 50⟩ : Pt) := by
  decide

/-- Claim C2 (amended): when the walker finds the marker component, the
`opt_laser` pin is attached to it at the component's local origin (0,0) —
the code computes `port_bbox.left - port_bbox.left` and 0 — with width 800
and facing 180; this equals (bbox.left, bbox.center().y) only for components
whose bounding box has left edge 0 and vertical center 0. -/
theorem claim2_pin_at_local_origin :
    ∀ (env : Env) (w : World) (topIdx subRoot : Nat) (name : String) (wl : Nat)
      (w' : World) (out : Outcome),
      create_simplified_piclet env w topIdx subRoot name wl = .ok (w', out) →
      out.fallbackUsed = false →
      out.pinPos = ⟨0, 0⟩ ∧ out.pinRot = 180 ∧ out.pinWidth = 800 := by
  intro env w topIdx subRoot name wl w' out h hfb
  obtain ⟨_, _, _, _, _, _, hw800, _, hcase⟩ :=
    create_ok_char env w topIdx subRoot name wl w' out h
  rcases hcase with ⟨_, hp, hr, _⟩ | ⟨ht, _, _, _⟩
  · exact ⟨hp, hr, hw800⟩
  · rw [hfb] at ht
    exact absurd ht (by simp)

/-- Claim C2, witness: the amended statement on the concrete marker run. -/
theorem claim2_witness :
    runMarker.2.pinPos = ⟨0, 0⟩ ∧ runMarker.2.pinRot = 180 ∧
      runMarker.2.pinWidth = 800 :=
  claim2_pin_at_local_origin envOk wMarker 0 0 "s" 1310 runMarker.1 runMarker.2
    (by decide) (by decide)

/-- Claim C3, counterexample: the markerless submission's bounding box has
horizontal center 2000, but the fallback pin is attached at x = 1000 (half
the bounding-box width from the cell origin), not at the horizontal
center. -/
theorem claim3_counterexample :
    (create_simplified_piclet envOk wNoMarker 0 0 "s" 1310).map
        (fun p => (p.2.fallbackUsed, p.2.pinPos, p.2.pinRot)) =
      .ok (true, ⟨1000, 0⟩, 0) ∧
    (subLyNoMarker.cellAt 0).bbox.center.x = 2000 ∧ (1000 : Int) ≠ 2000 := by
  decide

/-- Claim C3 (amended): on a lookup-miss composition still completes
whenever the required laser and Y-branch cells are available; the fallback
attaches the `opt_laser` pin to the copied submission cell at x equal to
half the submission's bounding-box width measured from the cell origin
(which is the bounding-box horizontal center only when the box's left edge
is 0), y = 0, with facing 0 instead of the primary path's 180, and the
degraded match is reported. -/
theorem claim3_fallback :
    (∀ (env : Env) (w : World) (topIdx subRoot : Nat) (name : String) (wl : Nat),
      env.laserOk = true → env.ybranchOk = true →
      ∃ w' out, create_simplified_piclet env w topIdx subRoot name wl = .ok (w', out)) ∧
    (∀ (env : Env) (w : World) (topIdx subRoot : Nat) (name : String) (wl : Nat)
      (w' : World) (out : Outcome),
      create_simplified_piclet env w topIdx subRoot name wl = .ok (w', out) →
      out.fallbackUsed = true →
      out.pinPos = ⟨(w.subLy.cellAt subRoot).bbox.width / 2, 0⟩ ∧
      out.pinRot = 0 ∧ out.pinTarget = w.ly.cells.length + 1) := by
  refine ⟨fun env w t s n wl hl hy => create_completes env w t s n wl hl hy, ?_⟩
  intro env w t s n wl w' out h hfb
  obtain ⟨_, _, _, _, _, _, _, hsub, hcase⟩ := create_ok_char env w t s n wl w' out h
  rcases hcase with ⟨hf, _, _, _⟩ | ⟨_, hp, hr, htar⟩
  · rw [hfb] at hf
    exact absurd hf (by simp)
  · exact ⟨hp, hr, htar.trans hsub⟩

/-- Claim C4: with two loaded submissions where composing the first raises
(laser cell unavailable), the driver records the failure for the first and
continues — but it never processes the second submission in any scenario,
because the loop iterates over `submissions[0:1]`; this contradicts the
claim and the function's own docstring. -/
theorem claim4_only_first_submission :
    generate_piclets envNoLaser [subFileA, subFileB] = [("alpha", false)] ∧
    generate_piclets envOk [subFileA, subFileB] = [("alpha", true)] ∧
    ∀ r ∈ generate_piclets envNoLaser [subFileA, subFileB], r.1 ≠ "beta" := by
  decide

/-- Claim C5: every successful composition inserts the submission instance
at exactly (ybranch.bbox().right + 2 · radius · 1000,
ybranch.bbox().center().y + 250e3), the radius being the waveguide
specification's bend radius (with its fallback), with no rotation. -/
theorem claim5_submission_offset :
    ∀ (env : Env) (w : World) (topIdx subRoot : Nat) (name : String) (wl : Nat)
      (w' : World) (out : Outcome),
      create_simplified_piclet env w topIdx subRoot name wl = .ok (w', out) →
      out.submissionTrans = ⟨.r0, env.ybranchBBox.right + 2 * env.radius * 1000,
        env.ybranchBBox.center.y + 250000⟩ := by
  intro env w topIdx subRoot name wl w' out h
  exact (create_ok_char env w topIdx subRoot name wl w' out h).2.2.2.1

/-- Claim C5, witness: the offset on the concrete markerless run. -/
theorem claim5_witness :
    runNoMarker.2.submissionTrans = ⟨.r0,
      envOk.ybranchBBox.right + 2 * envOk.radius * 1000,
      envOk.ybranchBBox.center.y + 250000⟩ :=
  claim5_submission_offset envOk wNoMarker 0 0 "s" 1310 runNoMarker.1
    runNoMarker.2 (by decide)

/-- Claim C6: the walker terminates on every hierarchy, cyclic ones
included, because the visited-set is shared across the whole traversal: its
fueled computation is already stable at fuel `cells.length + 1` (more fuel
never changes the answer), and on the cyclic A-B-A hierarchy with no marker
it returns a miss. -/
theorem claim6_termination :
    (∀ (ly : Layout) (idx fuel : Nat), ly.cells.length < fuel →
      findAux ly fuel idx [] = findAux ly (ly.cells.length + 1) idx []) ∧
    find_port_sin_cell_and_position lyCyclic 0 = none := by
  constructor
  · intro ly idx fuel hf
    have hcard : (unvisited ly []).card < ly.cells.length + 1 := by
      rw [unvisited_nil_card]
      omega
    exact findAux_stable_of_le ly idx [] (ly.cells.length + 1) hcard fuel hf
  · decide

/-- Claim C7: all direct child instances are scanned before any recursion,
so a direct-scan hit at the search root is the walker's answer, whatever is
nested deeper. -/
theorem claim7_direct_children_first :
    ∀ (ly : Layout) (idx : Nat) (r : Nat × Int),
      firstPortSiN ly (ly.cellAt idx).insts = some r →
      find_port_sin_cell_and_position ly idx = some r := by
  intro ly idx r h
  exact find_direct ly idx r h

/-- Claim C7, witness: on a hierarchy with a matching direct child and a
deeper match two levels down, the walker returns the direct child. -/
theorem claim7_witness :
    find_port_sin_cell_and_position lyPriority 0 = some (2, 20) :=
  claim7_direct_children_first lyPriority 0 (2, 20) (by decide)

/-- Claim C8: a missing laser or Y-branch cell makes the composition raise
(no partial piclet is returned), while a missing FaML reference cell only
records a warning and composition still completes. -/
theorem claim8_parts_library_miss :
    ∀ (env : Env) (w : World) (topIdx subRoot : Nat) (name : String) (wl : Nat),
      (env.laserOk = false →
        create_simplified_piclet env w topIdx subRoot name wl =
          .error ("Cannot import cell ebeam_dream_Laser_SiN_" ++ toString wl ++ "_BB")) ∧
      (env.laserOk = true → env.ybranchOk = false →
        create_simplified_piclet env w topIdx subRoot name wl =
          .error "Cannot load Y-branch cell") ∧
      (env.laserOk = true → env.ybranchOk = true → env.famlOk = false →
        ∃ w' out, create_simplified_piclet env w topIdx subRoot name wl = .ok (w', out) ∧
          out.famlWarning = true ∧ out.famlTrans = none) := by
  intro env w topIdx subRoot name wl
  refine ⟨fun h => create_laser_missing env w topIdx subRoot name wl h,
    fun hl hy => create_ybranch_missing env w topIdx subRoot name wl hl hy,
    fun hl hy hf => ?_⟩
  obtain ⟨w', out, hok⟩ := create_completes env w topIdx subRoot name wl hl hy
  obtain ⟨_, _, _, _, hwarn, htrans, _⟩ :=
    create_ok_char env w topIdx subRoot name wl w' out hok
  refine ⟨w', out, hok, ?_, ?_⟩
  · rw [hwarn, hf]
    rfl
  · rw [htrans, if_neg (by simp [hf])]

/-- Claim C9: a successful composition returns the submission's own layout
untouched, and the only pin-adding mutation targets a cell created by this
very composition (the copied submission cell or a cell inside the copied
tree), never a pre-existing cell. -/
theorem claim9_submission_not_mutated :
    ∀ (env : Env) (w : World) (topIdx subRoot : Nat) (name : String) (wl : Nat)
      (w' : World) (out : Outcome),
      create_simplified_piclet env w topIdx subRoot name wl = .ok (w', out) →
      w'.subLy = w.subLy ∧ w.ly.cells.length + 1 ≤ out.pinTarget := by
  intro env w topIdx subRoot name wl w' out h
  obtain ⟨_, _, hsub, _, _, _, _, hcopy, hcase⟩ :=
    create_ok_char env w topIdx subRoot name wl w' out h
  refine ⟨hsub, ?_⟩
  rcases hcase with ⟨_, _, _, hge⟩ | ⟨_, _, _, htar⟩
  · exact hge
  · exact le_of_eq (htar.trans hcopy).symm

/-- Claim C9, witness: the frame property on the concrete marker run. -/
theorem claim9_witness :
    runMarker.1.subLy = wMarker.subLy ∧
      wMarker.ly.cells.length + 1 ≤ runMarker.2.pinTarget :=
  claim9_submission_not_mutated envOk wMarker 0 0 "s" 1310 runMarker.1
    runMarker.2 (by decide)

/-- Claim C10: the walker's marker predicate is substring containment of
"port_SiN" in the referenced cell's name — not exact equality: a name that
strictly contains "port_SiN" matches, while the differently capitalized
"Port_SiN" does not. -/
theorem claim10_substring_match :
    (∀ s : String, matchesPortSiN s = true ↔ "port_SiN".toList <:+: s.toList) ∧
    find_port_sin_cell_and_position lyV2 0 = some (1, 0) ∧
    find_port_sin_cell_and_position lyCap 0 = none := by
  refine ⟨fun s => ?_, by decide, by decide⟩
  unfold matchesPortSiN containsSubstr
  exact listSubstr_iff "port_SiN".toList s.toList

end PicletGen
